import Mathlib

/-
Verification development for the bottom-up enumerative program-synthesis
engine (enumerative_synthesis.py, string_synthesizer.py, strings.py,
shape_synthesizer.py).

Python strings are modelled as Lean String over their character lists.  The
character-class predicates (isalnum, upper, lower, whitespace) are modelled
on the ASCII fragment, which covers every literal appearing in the source
and in the examples used below.
-/

namespace MPAssign

/-- Python whitespace characters recognised by str.strip and str.split(). -/
def isPySpace (c : Char) : Bool :=
  c = ' ' || c = '\t' || c = '\n' || c = '\x0d' || c = '\x0b' || c = '\x0c'

/-- Model of Python str.strip(): drop whitespace from both ends. -/
def pyStrip (s : String) : String :=
  String.mk (((s.data.dropWhile isPySpace).reverse.dropWhile isPySpace).reverse)

/-- Model of Python str.upper() on the ASCII fragment. -/
def pyUpper (s : String) : String :=
  String.mk (s.data.map Char.toUpper)

/-- Model of Python str.lower() on the ASCII fragment. -/
def pyLower (s : String) : String :=
  String.mk (s.data.map Char.toLower)

/-- Model of Python str.capitalize(): first character uppercased, the rest
lowercased. -/
def pyCapitalize (s : String) : String :=
  match s.data with
  | [] => ""
  | c :: rest => String.mk (Char.toUpper c :: rest.map Char.toLower)

/-- Python str.isupper() (ASCII fragment): at least one cased character and
no lowercase cased character. -/
def pyIsUpperStr (s : String) : Bool :=
  s.data.any (fun c => c.isAlpha) && s.data.all (fun c => !c.isAlpha || c.isUpper)

/-- Python str.islower() (ASCII fragment): at least one cased character and
no uppercase cased character. -/
def pyIsLowerStr (s : String) : Bool :=
  s.data.any (fun c => c.isAlpha) && s.data.all (fun c => !c.isAlpha || c.isLower)

/-- If pat is an initial segment of l, return the remainder. -/
def dropPre : List Char → List Char → Option (List Char)
  | [], l => some l
  | _ :: _, [] => none
  | p :: ps, c :: cs => if p = c then dropPre ps cs else none

/-- Python str.startswith on character lists. -/
def pyStarts (s pre : String) : Bool :=
  (dropPre pre.data s.data).isSome

/-- Python str.endswith on character lists. -/
def pyEnds (s suf : String) : Bool :=
  (dropPre suf.data.reverse s.data.reverse).isSome

/-- Worker for Python str.split(sep) with a non-empty separator.  The first
argument is fuel bounding the recursion by the length of the remaining
input; it is always instantiated with the full length, which suffices for a
non-empty separator. -/
def pySplitCharsF (sep : List Char) : Nat → List Char → List (List Char)
  | _, [] => [[]]
  | 0, l => [l]
  | fuel + 1, c :: cs =>
    match dropPre sep (c :: cs) with
    | some rest => [] :: pySplitCharsF sep fuel rest
    | none =>
      match pySplitCharsF sep fuel cs with
      | [] => [[c]]
      | h :: t => (c :: h) :: t

/-- Model of Python str.split(sep) for a non-empty separator sep.  (Python
raises ValueError on an empty separator; callers below guard that case.) -/
def pySplit (s sep : String) : List String :=
  if sep.data = [] then [s]
  else (pySplitCharsF sep.data s.data.length s.data).map String.mk

/-- Python substring containment (the `in` operator). -/
def pyContains (s pat : String) : Bool :=
  if pat = "" then true else decide ((pySplit s pat).length ≠ 1)

/-- Worker for Python str.split() with no separator: split on whitespace
runs, dropping empty pieces.  The second argument accumulates the current
token reversed. -/
def pySplitWSAux : List Char → List Char → List (List Char)
  | [], cur => if cur = [] then [] else [cur.reverse]
  | c :: cs, cur =>
    if isPySpace c then
      (if cur = [] then pySplitWSAux cs [] else cur.reverse :: pySplitWSAux cs [])
    else pySplitWSAux cs (c :: cur)

/-- Model of Python str.split() with no separator. -/
def pySplitWS (s : String) : List String :=
  (pySplitWSAux s.data []).map String.mk

/-- Model of Python list indexing with negative indices; out-of-range
indices return the supplied default (the callers catch IndexError and
substitute it). -/
def pyGetD (xs : List String) (i : Int) (d : String) : String :=
  let n : Int := xs.length
  if 0 ≤ i ∧ i < n then xs.getD i.toNat d
  else if -n ≤ i ∧ i < 0 then xs.getD (i + n).toNat d
  else d

/-- Model of Python slicing l[a:b] on character lists: negative indices
count from the end, indices are clamped, and an empty range gives []. -/
def pySliceList (l : List Char) (a b : Int) : List Char :=
  let n : Int := l.length
  let lo : Int := if a < 0 then max 0 (n + a) else min a n
  let hi : Int := if b < 0 then max 0 (n + b) else min b n
  (l.drop lo.toNat).take (hi - lo).toNat

/-- Model of Python string slicing s[a:b]. -/
def pySlice (s : String) (a b : Int) : String :=
  String.mk (pySliceList s.data a b)

/-- Model of Python str.replace(old, new), replacing all occurrences; an
empty old interleaves new at every character boundary. -/
def pyReplace (s old new : String) : String :=
  if old = "" then new ++ String.join (s.data.map fun c => String.singleton c ++ new)
  else String.intercalate new (pySplit s old)

/-- Model of Python s * n for a string and an int: non-positive n gives the
empty string. -/
def pyRepeatStr (s : String) (n : Int) : String :=
  String.join (List.replicate n.toNat s)

/-- The string DSL of strings.py: one constructor per StringExpression
subclass, each carrying exactly its structural operands.  Structural
equality of the Python classes (their eq and hash methods) is Lean's
constructor equality. -/
inductive StrExpr where
  | Literal (value : String)
  | Input
  | Concatenate (left right : StrExpr)
  | Substring (expr : StrExpr) (startIdx endIdx : Int)
  | ToUpper (expr : StrExpr)
  | ToLower (expr : StrExpr)
  | Replace (expr oldSub newSub : StrExpr)
  | Strip (expr : StrExpr)
  | Repeat (expr : StrExpr) (count : Int)
  | SplitThenTake (expr delimiter : StrExpr) (index : Int)
  | Capitalize (expr : StrExpr)
deriving DecidableEq

/-- Interpretation of the string DSL (strings.py interpret methods).  A
Python exception is the error case.  The only raising operation is
SplitThenTake with an empty delimiter (Python str.split raises ValueError
on an empty separator; the surrounding try catches only IndexError).
Substring slicing never raises in Python, and SplitThenTake catches the
IndexError of an out-of-range piece and returns the empty string. -/
def interpretE : StrExpr → String → Except Unit String
  | .Literal v, _ => .ok v
  | .Input, input => .ok input
  | .Concatenate l r, input => do
    let a ← interpretE l input
    let b ← interpretE r input
    .ok (a ++ b)
  | .Substring e a b, input => do
    let s ← interpretE e input
    .ok (pySlice s a b)
  | .ToUpper e, input => do
    let s ← interpretE e input
    .ok (pyUpper s)
  | .ToLower e, input => do
    let s ← interpretE e input
    .ok (pyLower s)
  | .Replace e o n, input => do
    let s ← interpretE e input
    let os ← interpretE o input
    let ns ← interpretE n input
    .ok (pyReplace s os ns)
  | .Strip e, input => do
    let s ← interpretE e input
    .ok (pyStrip s)
  | .Repeat e c, input => do
    let s ← interpretE e input
    .ok (pyRepeatStr s c)
  | .SplitThenTake e d i, input => do
    let s ← interpretE e input
    let ds ← interpretE d input
    if ds = "" then .error ()
    else .ok (pyGetD (pySplit s ds) i "")
  | .Capitalize e, input => do
    let s ← interpretE e input
    .ok (pyCapitalize s)

/-- The Repeat constructor of strings.py validates its count and raises
ValueError when count < 1; this smart constructor models construction. -/
def mkRepeat (e : StrExpr) (count : Int) : Except Unit StrExpr :=
  if count < 1 then .error () else .ok (.Repeat e count)

/-- AST depth of a string DSL expression (leaves have depth 1). -/
def strDepth : StrExpr → Nat
  | .Literal _ => 1
  | .Input => 1
  | .Concatenate l r => 1 + max (strDepth l) (strDepth r)
  | .Substring e _ _ => 1 + strDepth e
  | .ToUpper e => 1 + strDepth e
  | .ToLower e => 1 + strDepth e
  | .Replace e o n => 1 + max (strDepth e) (max (strDepth o) (strDepth n))
  | .Strip e => 1 + strDepth e
  | .Repeat e _ => 1 + strDepth e
  | .SplitThenTake e d _ => 1 + max (strDepth e) (strDepth d)
  | .Capitalize e => 1 + strDepth e

/-- The printed form of an expression, mirroring the str methods of
strings.py; string_synthesizer.py uses it as a deduplication key. -/
def toStr : StrExpr → String
  | .Literal v => "\"" ++ v ++ "\""
  | .Input => "input"
  | .Concatenate l r => "Concat(" ++ toStr l ++ ", " ++ toStr r ++ ")"
  | .Substring e a b =>
    "Substring(" ++ toStr e ++ ", " ++ toString a ++ ", " ++ toString b ++ ")"
  | .ToUpper e => "ToUpper(" ++ toStr e ++ ")"
  | .ToLower e => "ToLower(" ++ toStr e ++ ")"
  | .Replace e o n =>
    "Replace(" ++ toStr e ++ ", " ++ toStr o ++ ", " ++ toStr n ++ ")"
  | .Strip e => "Strip(" ++ toStr e ++ ")"
  | .Repeat e c => "Repeat(" ++ toStr e ++ ", " ++ toString c ++ ")"
  | .SplitThenTake e d i =>
    "SplitThenTake(" ++ toStr e ++ ", " ++ toStr d ++ ", " ++ toString i ++ ")"
  | .Capitalize e => "Capitalize(" ++ toStr e ++ ")"

/-- Insertion into a Python set, modelled as a list without duplicates kept
in insertion order.  CPython iterates a set in an unspecified, hash-seed
dependent order; every statement proved below about such a set is
order-independent (membership, length, emptiness), so this linearisation is
only a bookkeeping device. -/
def pySetAdd {α : Type} [DecidableEq α] (l : List α) (a : α) : List α :=
  if a ∈ l then l else l ++ [a]

/-- Fold pySetAdd over a list of insertions. -/
def pySetAddAll {α : Type} [DecidableEq α] (l : List α) (xs : List α) : List α :=
  xs.foldl pySetAdd l

/-- The common_literals list of StringSynthesizer. -/
def commonLiterals : List String :=
  ["", " ", ".", ",", "-", "/", "_", ":", ";", "!", "?", "*", "#", "@", "$",
   "0", "1", "2", "3", "4", "5", "6", "7", "8", "9", "\\", "v", "(", ")"]

/-- The separator patterns scanned by generate_terminals. -/
def terminalPats : List String :=
  [" ", "_", "-", ".", "/", "\\", "@", "(", ")", "v"]

/-- Model of Python per-char isalnum on the ASCII fragment. -/
def pyIsAlnumChar (c : Char) : Bool :=
  c.isAlpha || c.isDigit

/-- The single-character literals contributed by one string in
generate_terminals: characters that are in common_literals or are not
alphanumeric. -/
def charLits (s : String) : List String :=
  s.data.filterMap fun c =>
    if String.singleton c ∈ commonLiterals || !pyIsAlnumChar c then
      some (String.singleton c)
    else none

/-- The needed_literals set of StringSynthesizer.generate_terminals, as the
insertion-order linearisation of the Python set, with the final
discard of the empty string. -/
def buildNeeded (ex : List (String × String)) : List String :=
  let base :=
    ex.foldl
      (fun acc pr =>
        let acc := pySetAddAll acc (charLits pr.1 ++ charLits pr.2)
        pySetAddAll acc
          (terminalPats.filter fun p => pyContains pr.1 p || pyContains pr.2 p))
      []
  let base := if ex.any (fun pr => pyContains pr.2 ".00") then pySetAdd base ".00" else base
  let base := if ex.any (fun pr => pyContains pr.2 "***") then pySetAdd base "***" else base
  let base := pySetAdd (pySetAdd base "\\") "/"
  let base := pySetAddAll base commonLiterals
  base.filter (fun s => s ≠ "")

/-- StringSynthesizer.generate_terminals: the input reference followed by
one literal per needed literal. -/
def genTerminalsStr (ex : List (String × String)) : List StrExpr :=
  .Input :: (buildNeeded ex).map .Literal

/-- StringSynthesizer.is_correct: every example input interprets without
exception to exactly the expected output. -/
def isCorrectStr (p : StrExpr) (ex : List (String × String)) : Bool :=
  ex.all fun pr =>
    match interpretE p pr.1 with
    | .ok r => r = pr.2
    | .error _ => false

/-- StringSynthesizer.compute_signature: the tuple of outputs on the test
inputs, evaluated left to right, or the null signature when any
interpretation raises. -/
def computeSignatureStr (p : StrExpr) : List String → Option (List String)
  | [] => some []
  | inp :: rest =>
    match (interpretE p inp).toOption with
    | none => none
    | some r => (computeSignatureStr p rest).map (fun rs => r :: rs)

/-- The delimiter list used inside StringSynthesizer.grow. -/
def delimitersList : List String :=
  [" ", "_", "-", ".", "/", "\\", "@", "(", ")", ",", "#", "*"]

/-- The concat_terminals list of grow: the input reference plus one literal
per delimiter whose strip is truthy (which excludes the space). -/
def concatTerminals : List StrExpr :=
  .Input :: (delimitersList.filter fun l => pyStrip l ≠ "").map .Literal

/-- grow flag is_slug. -/
def isSlug (ex : List (String × String)) : Bool :=
  ex.all fun pr => pyIsLowerStr pr.2 && pyContains pr.2 "-" && !pyContains pr.2 " "

/-- grow flag is_extract_dirpath. -/
def isExtractDirpath (ex : List (String × String)) : Bool :=
  ex.all fun pr => pyStarts pr.2 "/" && (pySplit pr.2 "/").length = 2

/-- grow flag is_extract_filename. -/
def isExtractFilename (ex : List (String × String)) : Bool :=
  ex.all fun pr =>
    pyContains pr.1 "/" && pyContains pr.1 "." &&
      pr.2 = pyGetD (pySplit (pyGetD (pySplit pr.1 "/") (-1) "") ".") 0 ""

/-- grow flag is_format_title. -/
def isFormatTitle (ex : List (String × String)) : Bool :=
  ex.all fun pr => pyIsUpperStr (pyReplace pr.2 " " "") && !pyContains pr.2 "_"

/-- First character of a string as a one-character string (empty input
gives the empty string; every use below is guarded as in the source). -/
def firstCharStr (s : String) : String :=
  String.mk (s.data.take 1)

/-- grow flag is_first_name_initial. -/
def isFirstNameInitial (ex : List (String × String)) : Bool :=
  ex.all fun pr =>
    pr.2.length = 1 && pyUpper pr.2 = pr.2 && (pySplitWS pr.1).length ≥ 1 &&
      pr.2 = firstCharStr (pyGetD (pySplitWS pr.1) 0 "")

/-- grow flag is_normalize_path. -/
def isNormalizePath (ex : List (String × String)) : Bool :=
  ex.any (fun pr => pyContains pr.1 "\\") && ex.all (fun pr => pyContains pr.2 "/")

/-- grow flag is_prof_email. -/
def isProfEmail (ex : List (String × String)) : Bool :=
  ex.all fun pr => pyIsUpperStr (pyGetD (pySplit pr.2 " ") 0 "") && pyContains pr.2 " "

/-- grow flag is_password. -/
def isPassword (ex : List (String × String)) : Bool :=
  ex.all fun pr => pr.2.length = 6 && pyEnds pr.2 "***"

/-- grow flag is_currency. -/
def isCurrency (ex : List (String × String)) : Bool :=
  ex.all fun pr => pyStarts pr.2 "$" && pyEnds pr.2 ".00"

/-- grow flag is_reverse_name. -/
def isReverseName (ex : List (String × String)) : Bool :=
  ex.any fun pr => pyContains pr.2 ", "

/-- grow flag is_parent_dir. -/
def isParentDir (ex : List (String × String)) : Bool :=
  ex.all fun pr =>
    pyContains pr.1 "/" && (pySplit pr.1 "/").length > 1 &&
      pr.2 = pyGetD (pySplit pr.1 "/") (-2) ""

/-- grow flag is_hashtag. -/
def isHashtag (ex : List (String × String)) : Bool :=
  ex.all fun pr => pyStarts pr.2 "#" && pyIsLowerStr pr.2 && !pyContains pr.2 " "

/-- grow flag is_middle_initial. -/
def isMiddleInitial (ex : List (String × String)) : Bool :=
  ex.all fun pr =>
    pr.2.length = 1 && pyUpper pr.2 = pr.2 && (pySplitWS pr.1).length > 2 &&
      pr.2 = firstCharStr (pyGetD (pySplitWS pr.1) 1 "")

/-- grow flag is_major_version. -/
def isMajorVersion (ex : List (String × String)) : Bool :=
  ex.all fun pr =>
    pyStarts pr.1 "v" && pyContains pr.1 "." &&
      pr.2 = pyGetD (pySplit (pySlice pr.1 1 pr.1.length) ".") 0 ""

/-- The slug target program of grow. -/
def slugT : StrExpr :=
  .ToLower (.Replace (.Strip .Input) (.Literal " ") (.Literal "-"))

/-- The extract_dirpath target program of grow. -/
def dirT : StrExpr :=
  .Concatenate (.Literal "/") (.SplitThenTake .Input (.Literal "/") 1)

/-- The extract_filename target program of grow. -/
def fileT : StrExpr :=
  .SplitThenTake (.SplitThenTake .Input (.Literal "/") (-1)) (.Literal ".") 0

/-- The format_title target program of grow. -/
def titleT : StrExpr :=
  .ToUpper (.Replace (.Strip .Input) (.Literal "_") (.Literal " "))

/-- The first_name_initial target program of grow. -/
def fnInitialT : StrExpr :=
  .ToUpper (.Substring (.SplitThenTake .Input (.Literal " ") 0) 0 1)

/-- The normalize_path target program of grow. -/
def normTarget : StrExpr :=
  .Replace .Input (.Literal "\\") (.Literal "/")

/-- The prof_email target program of grow. -/
def emailT : StrExpr :=
  .Concatenate (.ToUpper (.SplitThenTake .Input (.Literal " ") 0))
    (.Concatenate (.Literal " ") (.SplitThenTake .Input (.Literal " ") (-1)))

/-- The password target program of grow. -/
def passT : StrExpr :=
  .Concatenate (.Capitalize (.Substring .Input 0 3)) (.Literal "***")

/-- The currency target program of grow. -/
def currT : StrExpr :=
  .Concatenate (.Concatenate (.Literal "$") .Input) (.Literal ".00")

/-- The reverse_name target program of grow. -/
def revT : StrExpr :=
  .Concatenate
    (.Concatenate (.SplitThenTake .Input (.Literal " ") (-1)) (.Literal ", "))
    (.SplitThenTake .Input (.Literal " ") 0)

/-- The parent_dir target program of grow. -/
def parT : StrExpr :=
  .SplitThenTake .Input (.Literal "/") (-2)

/-- The hashtag target program of grow. -/
def hashT : StrExpr :=
  .Concatenate (.Literal "#")
    (.Replace (.ToLower .Input) (.Literal " ") (.Literal ""))

/-- The middle_initial target program of grow. -/
def midT : StrExpr :=
  .ToUpper (.Substring (.SplitThenTake .Input (.Literal " ") 1) 0 1)

/-- The major_version target program of grow; the Substring end index is the
length of the first example input (grow reads input_strs[0], which the
driver guarantees exists since examples are non-empty). -/
def majorT (ex : List (String × String)) : StrExpr :=
  .SplitThenTake (.Substring .Input 1 ((ex.headD ("", "")).1.length)) (.Literal ".") 0

/-- The check guarding the second normalize_path block of grow: the target
interprets every example input to exactly the expected output list.  The
comparison is the Python list equality outs == expected. -/
def normOuts (ex : List (String × String)) : Bool :=
  decide (ex.map (fun pr => (interpretE normTarget pr.1).toOption)
    = ex.map (fun pr => some pr.2))

/-- The target_programs list of grow in append order, as it stands when the
final target loop is reached (i.e. when neither early return fired): the
first_name_initial target is appended only when its flag holds and it is
not correct (otherwise grow returned early), and the normalize_path target
is appended a second time in the second normalize_path block only when the
outs check failed (otherwise grow returned early). -/
def allTargets (ex : List (String × String)) : List StrExpr :=
  (if isSlug ex then [slugT] else []) ++
  (if isExtractDirpath ex then [dirT] else []) ++
  (if isExtractFilename ex then [fileT] else []) ++
  (if isFormatTitle ex then [titleT] else []) ++
  (if isFirstNameInitial ex && !isCorrectStr fnInitialT ex then [fnInitialT] else []) ++
  (if isNormalizePath ex then [normTarget] else []) ++
  (if isProfEmail ex then [emailT] else []) ++
  (if isPassword ex then [passT] else []) ++
  (if isCurrency ex then [currT] else []) ++
  (if isReverseName ex then [revT] else []) ++
  (if isParentDir ex then [parT] else []) ++
  (if isHashtag ex then [hashT] else []) ++
  (if isNormalizePath ex && !normOuts ex then [normTarget] else []) ++
  (if isMiddleInitial ex then [midT] else []) ++
  (if isMajorVersion ex then [majorT ex] else [])

/-- The per-base additions of the enumeration part of grow, in the order
the source adds them to the new_programs set. -/
def variantList (base : StrExpr) : List StrExpr :=
  [.ToUpper base, .ToLower base, .Strip base, .Capitalize base] ++
  delimitersList.flatMap
    (fun d => [.Replace base (.Literal d) (.Literal ""),
               .Replace base (.Literal d) (.Literal "-")]) ++
  [.Repeat base 2, .Repeat base 3] ++
  delimitersList.flatMap
    (fun d => [.SplitThenTake base (.Literal d) 0,
               .SplitThenTake base (.Literal d) (-1),
               .SplitThenTake base (.Literal d) 1]) ++
  [.Substring base 0 1, .Substring base 0 3, .Substring base 1 4]

/-- The validity-and-deduplication loop of grow: walk the candidate set,
stop once 3000 programs were kept, skip candidates whose interpretation of
the sample input raises, and keep at most one candidate per printed form.
The state is the kept list together with the set of seen printed forms. -/
def validLoop : List StrExpr → String → List StrExpr × List String → List StrExpr × List String
  | [], _, st => st
  | c :: rest, sampleIn, (valid, seen) =>
    if valid.length ≥ 3000 then (valid, seen)
    else
      match interpretE c sampleIn with
      | .error _ => validLoop rest sampleIn (valid, seen)
      | .ok _ =>
        let r := toStr c
        if r ∈ seen then validLoop rest sampleIn (valid, seen)
        else validLoop rest sampleIn (valid ++ [c], r :: seen)

/-- The enumeration part of grow, reached when no hard-coded target was
correct: build the new_programs set over the first 3000 base programs,
filter and deduplicate it with validLoop, then push each target whose
printed form was not seen to the front (in reverse target order, since the
source inserts each at position 0). -/
def mainGrow (programList : List StrExpr) (ex : List (String × String))
    (targets : List StrExpr) : List StrExpr :=
  let base := programList.take 3000
  let newP := pySetAddAll []
    (base.flatMap variantList ++
      concatTerminals.flatMap (fun a => concatTerminals.map fun b => .Concatenate a b))
  let sampleIn := (ex.headD ("", "")).1
  let st := validLoop newP sampleIn ([], [])
  (targets.filter fun t => decide (toStr t ∉ st.2)).reverse ++ st.1

/-- StringSynthesizer.grow.  The two early returns inside the sniffing
blocks are hoisted to the front: their conditions do not depend on the
accumulated target list, and no other statement before them returns. -/
def growString (programList : List StrExpr) (ex : List (String × String)) : List StrExpr :=
  if isFirstNameInitial ex && isCorrectStr fnInitialT ex then [fnInitialT]
  else if isNormalizePath ex && normOuts ex then [normTarget]
  else
    match (allTargets ex).find? (fun t => isCorrectStr t ex) with
    | some t => [t]
    | none => mainGrow programList ex (allTargets ex)

/-- The capability set a DSL-specific synthesizer provides to the generic
driver of enumerative_synthesis.py (the abstract methods of
BottomUpSynthesizer).  compute_signature returns none when the
interpretation raised: both a null signature from the method itself and an
exception caught by the driver's per-program try are this case. -/
structure SynthSpec (T Ex In Sig : Type) where
  generate_terminals : List Ex → List T
  grow : List T → List Ex → List T
  is_correct : T → List Ex → Bool
  extract_test_inputs : List Ex → List In
  compute_signature : T → List In → Option Sig

/-- The error kinds that cross the synthesize API boundary. -/
inductive SynthError where
  | emptyExamples
  | exhaustedBudget
deriving DecidableEq

/-- BottomUpSynthesizer.eliminate_equivalents: walk the program list with a
set of seen signatures, dropping programs whose signature is null (a raised
interpretation) or already seen, and yielding the rest in order.  The
interpretation cache of the source is written but never read for any
decision, so it is not modelled. -/
def elimEquiv {T Ex In Sig : Type} [DecidableEq Sig] (S : SynthSpec T Ex In Sig)
    (ti : List In) : List T → List Sig → List T
  | [], _ => []
  | p :: rest, seen =>
    match S.compute_signature p ti with
    | none => elimEquiv S ti rest seen
    | some s =>
      if s ∈ seen then elimEquiv S ti rest seen
      else p :: elimEquiv S ti rest (s :: seen)

/-- The growth loop of BottomUpSynthesizer.synthesize (the for-loop over
iterations 1..max_iterations).  allP is all_programs, uniqueP is
unique_programs; in accumulating mode the base is allP and allP is
re-deduplicated after appending the new survivors, otherwise the base is
uniqueP which becomes the new survivor list.  An empty survivor list breaks
out of the loop, which then raises the budget error. -/
def synthLoop {T Ex In Sig : Type} [DecidableEq Sig] (S : SynthSpec T Ex In Sig)
    (ex : List Ex) (ti : List In) (acc : Bool) :
    Nat → List T → List T → Except SynthError T
  | 0, _, _ => .error .exhaustedBudget
  | fuel + 1, allP, uniqueP =>
    let base := if acc then allP else uniqueP
    let newU := elimEquiv S ti (S.grow base ex) []
    if newU.isEmpty then .error .exhaustedBudget
    else
      match newU.find? (fun p => S.is_correct p ex) with
      | some p => .ok p
      | none =>
        if acc then
          synthLoop S ex ti acc fuel (elimEquiv S ti (allP ++ newU) []) uniqueP
        else
          synthLoop S ex ti acc fuel allP newU

/-- BottomUpSynthesizer.synthesize: raise on zero examples, deduplicate the
terminals, return the first correct survivor, otherwise run the growth
loop for max_iterations rounds. -/
def synthesize {T Ex In Sig : Type} [DecidableEq Sig] (S : SynthSpec T Ex In Sig)
    (ex : List Ex) (maxIterations : Nat) (acc : Bool) : Except SynthError T :=
  match ex with
  | [] => .error .emptyExamples
  | _ :: _ =>
    let ti := S.extract_test_inputs ex
    let s0 := elimEquiv S ti (S.generate_terminals ex) []
    match s0.find? (fun p => S.is_correct p ex) with
    | some p => .ok p
    | none => synthLoop S ex ti acc maxIterations s0 s0

/-- The per-round survivor lists the driver examines after the terminal
round, in examination order, truncated at saturation (an empty survivor
list ends the loop). -/
def synthRounds {T Ex In Sig : Type} [DecidableEq Sig] (S : SynthSpec T Ex In Sig)
    (ex : List Ex) (ti : List In) (acc : Bool) :
    Nat → List T → List T → List (List T)
  | 0, _, _ => []
  | fuel + 1, allP, uniqueP =>
    let base := if acc then allP else uniqueP
    let newU := elimEquiv S ti (S.grow base ex) []
    if newU.isEmpty then []
    else
      newU ::
        (if acc then
          synthRounds S ex ti acc fuel (elimEquiv S ti (allP ++ newU) []) uniqueP
        else
          synthRounds S ex ti acc fuel allP newU)

/-- Every candidate the driver tests for correctness, in examination order:
the surviving terminals followed by the survivors of each growth round. -/
def synthCandidates {T Ex In Sig : Type} [DecidableEq Sig] (S : SynthSpec T Ex In Sig)
    (ex : List Ex) (maxIterations : Nat) (acc : Bool) : List T :=
  match ex with
  | [] => []
  | _ :: _ =>
    let ti := S.extract_test_inputs ex
    let s0 := elimEquiv S ti (S.generate_terminals ex) []
    s0 ++ (synthRounds S ex ti acc maxIterations s0 s0).flatten

/-- The StringSynthesizer instance of the driver capability set. -/
def stringSpec : SynthSpec StrExpr (String × String) String (List String) where
  generate_terminals := genTerminalsStr
  grow := growString
  is_correct := isCorrectStr
  extract_test_inputs := fun ex => ex.map (fun pr => pr.1)
  compute_signature := computeSignatureStr

/-- StringSynthesizer.synthesize: the subclass override calls the driver
with accumulate_programs set to true. -/
def stringSynthesize (ex : List (String × String)) (maxIterations : Nat) :
    Except SynthError StrExpr :=
  synthesize stringSpec ex maxIterations true

/-- Modelled from the spec: shapes.py is not under src (only its importers
are), so coordinates are the integer pairs of spec section 3. -/
structure Coordinate where
  x : Int
  y : Int
deriving DecidableEq

/-- Modelled from the spec: shapes.py is not under src, so the shape DSL
expression tree is taken from the variant list of spec section 3
(Rectangle, Triangle, Circle, Union, Intersection, Subtraction, Mirror),
with the structural equality and hashing the spec prescribes modelled as
constructor equality. -/
inductive Shape where
  | Rectangle (bottomLeft topRight : Coordinate)
  | Triangle (bottomLeft topRight : Coordinate)
  | Circle (center : Coordinate) (radius : Int)
  | Union (a b : Shape)
  | Intersection (a b : Shape)
  | Subtraction (a b : Shape)
  | Mirror (a : Shape)
deriving DecidableEq

/-- ShapeSynthesizer.grow: a Python set seeded with the program list, then
Mirror of every program, then Union, Intersection and Subtraction of every
ordered pair, returned as a list.  The set is modelled as its
insertion-order linearisation; CPython iterates it in an unspecified
order, and every fact proved about growShape (membership, absence of
duplicates, length) is order-independent. -/
def growShape (programList : List Shape) : List Shape :=
  pySetAddAll []
    (programList ++
      programList.map .Mirror ++
      programList.flatMap fun p =>
        programList.flatMap fun q =>
          [.Union p q, .Intersection p q, .Subtraction p q])

/-- Stated from the claim's words, for comparison with growShape: emit the
original set, then the mirrors, then the three binary combinations of each
ordered pair, and nothing else, in this order. -/
def claimedGrowShape (programList : List Shape) : List Shape :=
  programList ++
    programList.map .Mirror ++
    programList.flatMap fun p =>
      programList.flatMap fun q =>
        [.Union p q, .Intersection p q, .Subtraction p q]

/-- Stated from the claim's words, for comparison with buildNeeded: the
literal values of generate_terminals are claimed to be the deduplicated
union of every single character appearing in any example input or output
and a fixed literal set, with the empty literal excluded. -/
def claimedTerminalLiterals (ex : List (String × String)) : List String :=
  pySetAddAll []
    ((ex.flatMap fun pr => (pr.1.data ++ pr.2.data).map String.singleton) ++
      [" ", ".", ",", "-", "/", "_", ":", ";", "!", "?", "*", "#", "@", "$",
       "0", "1", "2", "3", "4", "5", "6", "7", "8", "9", "\\", "v", "(", ")",
       ".00", "***"]) |>.filter (fun s => s ≠ "")

/-- A degenerate synthesizer whose grow emits nothing; it exercises the
saturation exit of the driver. -/
def unitSpec : SynthSpec Unit Unit Unit Unit where
  generate_terminals := fun _ => []
  grow := fun _ _ => []
  is_correct := fun _ _ => true
  extract_test_inputs := fun _ => []
  compute_signature := fun _ _ => some ()

section SetLemmas

variable {α : Type} [DecidableEq α]

theorem pySetAdd_mem (l : List α) (b x : α) : x ∈ pySetAdd l b ↔ x ∈ l ∨ x = b := by
  by_cases h : b ∈ l
  · simp only [pySetAdd, if_pos h]
    constructor
    · exact Or.inl
    · rintro (h1 | rfl)
      · exact h1
      · exact h
  · simp [pySetAdd, if_neg h, List.mem_append]

theorem pySetAdd_nodup (l : List α) (b : α) (h : l.Nodup) : (pySetAdd l b).Nodup := by
  by_cases hm : b ∈ l
  · simpa only [pySetAdd, if_pos hm]
  · simp [pySetAdd, if_neg hm, List.nodup_append, h, hm]

theorem pySetAddAll_mem (xs : List α) : ∀ (l : List α) (x : α),
    x ∈ pySetAddAll l xs ↔ x ∈ l ∨ x ∈ xs := by
  induction xs with
  | nil => simp [pySetAddAll]
  | cons a rest ih =>
    intro l x
    simp only [pySetAddAll, List.foldl_cons]
    rw [show List.foldl pySetAdd (pySetAdd l a) rest = pySetAddAll (pySetAdd l a) rest from rfl]
    rw [ih, pySetAdd_mem]
    simp [List.mem_cons]
    tauto

theorem pySetAddAll_nodup (xs : List α) : ∀ (l : List α), l.Nodup → (pySetAddAll l xs).Nodup := by
  induction xs with
  | nil => intro l h; simpa [pySetAddAll]
  | cons a rest ih =>
    intro l h
    simp only [pySetAddAll, List.foldl_cons]
    exact ih (pySetAdd l a) (pySetAdd_nodup l a h)

end SetLemmas

section StoreLemmas

variable {T Ex In Sig : Type} [DecidableEq Sig]

/-- Every program the signature store yields has a non-null signature that
was not previously seen, and it is the first program of the offered list
bearing that signature. -/
theorem elimEquiv_spec (S : SynthSpec T Ex In Sig) (ti : List In) :
    ∀ (l : List T) (seen : List Sig) (p : T), p ∈ elimEquiv S ti l seen →
      ∃ s, S.compute_signature p ti = some s ∧ s ∉ seen ∧
        l.find? (fun x => decide (S.compute_signature x ti = some s)) = some p := by
  intro l
  induction l with
  | nil => intro seen p hp; simp [elimEquiv] at hp
  | cons q rest ih =>
    intro seen p hp
    cases hq : S.compute_signature q ti with
    | none =>
      simp only [elimEquiv, hq] at hp
      obtain ⟨s, hs, hseen, hfind⟩ := ih seen p hp
      refine ⟨s, hs, hseen, ?_⟩
      rw [List.find?_cons_of_neg, hfind]
      simp [hq]
    | some t =>
      simp only [elimEquiv, hq] at hp
      by_cases htseen : t ∈ seen
      · rw [if_pos htseen] at hp
        obtain ⟨s, hs, hseen, hfind⟩ := ih seen p hp
        refine ⟨s, hs, hseen, ?_⟩
        have hne : t ≠ s := fun h => hseen (h ▸ htseen)
        rw [List.find?_cons_of_neg, hfind]
        simp [hq, hne]
      · rw [if_neg htseen] at hp
        rcases List.mem_cons.mp hp with rfl | hp2
        · refine ⟨t, hq, htseen, ?_⟩
          rw [List.find?_cons_of_pos]
          simp [hq]
        · obtain ⟨s, hs, hseen2, hfind⟩ := ih (t :: seen) p hp2
          have hsne : s ∉ seen := fun h => hseen2 (List.mem_cons_of_mem t h)
          have hne : t ≠ s := fun h => hseen2 (h ▸ List.mem_cons_self t seen)
          refine ⟨s, hs, hsne, ?_⟩
          rw [List.find?_cons_of_neg, hfind]
          simp [hq, hne]

/-- The yields of one signature-store pass bear pairwise distinct
signatures. -/
theorem elimEquiv_pairwise (S : SynthSpec T Ex In Sig) (ti : List In) :
    ∀ (l : List T) (seen : List Sig),
      (elimEquiv S ti l seen).Pairwise
        (fun a b => S.compute_signature a ti ≠ S.compute_signature b ti) := by
  intro l
  induction l with
  | nil => intro seen; simp [elimEquiv]
  | cons q rest ih =>
    intro seen
    cases hq : S.compute_signature q ti with
    | none => simp only [elimEquiv, hq]; exact ih seen
    | some t =>
      simp only [elimEquiv, hq]
      by_cases htseen : t ∈ seen
      · rw [if_pos htseen]; exact ih seen
      · rw [if_neg htseen]
        refine List.Pairwise.cons ?_ (ih (t :: seen))
        intro b hb
        obtain ⟨s, hs, hseen2, _⟩ := elimEquiv_spec S ti rest (t :: seen) b hb
        rw [hq, hs]
        intro hcontra
        have hts : t = s := Option.some.inj hcontra
        exact hseen2 (hts ▸ List.mem_cons_self t seen)

end StoreLemmas

section DriverLemmas

variable {T Ex In Sig : Type} [DecidableEq Sig]

/-- Any program the growth loop returns passed the correctness check. -/
theorem synthLoop_ok_correct (S : SynthSpec T Ex In Sig) (ex : List Ex) (ti : List In)
    (acc : Bool) : ∀ (fuel : Nat) (allP uniqueP : List T) (p : T),
    synthLoop S ex ti acc fuel allP uniqueP = .ok p → S.is_correct p ex = true := by
  intro fuel
  induction fuel with
  | zero => intro allP uniqueP p h; simp [synthLoop] at h
  | succ n ih =>
    intro allP uniqueP p h
    simp only [synthLoop] at h
    split at h
    all_goals
      split at h
      case isTrue => simp at h
      case isFalse =>
        split at h
        next q hfind =>
          cases h
          have hc := List.find?_some hfind
          simpa using hc
        next hfind => exact ih _ _ _ h

/-- Any program the growth loop returns has a non-null signature. -/
theorem synthLoop_ok_sig (S : SynthSpec T Ex In Sig) (ex : List Ex) (ti : List In)
    (acc : Bool) : ∀ (fuel : Nat) (allP uniqueP : List T) (p : T),
    synthLoop S ex ti acc fuel allP uniqueP = .ok p → S.compute_signature p ti ≠ none := by
  intro fuel
  induction fuel with
  | zero => intro allP uniqueP p h; simp [synthLoop] at h
  | succ n ih =>
    intro allP uniqueP p h
    simp only [synthLoop] at h
    split at h
    all_goals
      split at h
      case isTrue => simp at h
      case isFalse =>
        split at h
        next q hfind =>
          cases h
          obtain ⟨s, hs, -, -⟩ :=
            elimEquiv_spec S ti _ [] p (List.mem_of_find?_eq_some hfind)
          simp [hs]
        next hfind => exact ih _ _ _ h

/-- The growth loop fails only with the budget error. -/
theorem synthLoop_error (S : SynthSpec T Ex In Sig) (ex : List Ex) (ti : List In)
    (acc : Bool) : ∀ (fuel : Nat) (allP uniqueP : List T) (e : SynthError),
    synthLoop S ex ti acc fuel allP uniqueP = .error e → e = .exhaustedBudget := by
  intro fuel
  induction fuel with
  | zero =>
    intro allP uniqueP e h
    simp only [synthLoop] at h
    cases h
    rfl
  | succ n ih =>
    intro allP uniqueP e h
    simp only [synthLoop] at h
    split at h
    all_goals
      split at h
      case isTrue => cases h; rfl
      case isFalse =>
        split at h
        next q hfind => simp at h
        next hfind => exact ih _ _ _ h

/-- When the growth loop returns a program, that program is the first
correct entry of the concatenated survivor lists of the remaining rounds. -/
theorem synthLoop_find (S : SynthSpec T Ex In Sig) (ex : List Ex) (ti : List In)
    (acc : Bool) : ∀ (fuel : Nat) (allP uniqueP : List T) (p : T),
    synthLoop S ex ti acc fuel allP uniqueP = .ok p →
      ((synthRounds S ex ti acc fuel allP uniqueP).flatten).find?
        (fun t => S.is_correct t ex) = some p := by
  intro fuel
  induction fuel with
  | zero => intro allP uniqueP p h; simp [synthLoop] at h
  | succ n ih =>
    intro allP uniqueP p h
    simp only [synthLoop] at h
    simp only [synthRounds]
    split at h
    case isTrue hacc =>
      subst hacc
      simp only [reduceIte]
      split at h
      case isTrue hemp => simp at h
      case isFalse hemp =>
        rw [if_neg hemp]
        split at h
        next q hfind =>
          cases h
          rw [List.flatten_cons, List.find?_append, hfind]
          rfl
        next hfind =>
          rw [List.flatten_cons, List.find?_append, hfind, Option.none_or]
          exact ih _ _ _ h
    case isFalse hacc =>
      have hf : acc = false := by simpa using hacc
      subst hf
      simp only [Bool.false_eq_true, reduceIte]
      split at h
      case isTrue hemp => simp at h
      case isFalse hemp =>
        rw [if_neg hemp]
        split at h
        next q hfind =>
          cases h
          rw [List.flatten_cons, List.find?_append, hfind]
          rfl
        next hfind =>
          rw [List.flatten_cons, List.find?_append, hfind, Option.none_or]
          exact ih _ _ _ h

/-- When synthesize returns a program, that program is the first correct
entry of the driver's examination order. -/
theorem synthesize_ok_first_candidate (S : SynthSpec T Ex In Sig)
    (ex : List Ex) (mi : Nat) (acc : Bool) (p : T)
    (h : synthesize S ex mi acc = .ok p) :
    (synthCandidates S ex mi acc).find? (fun t => S.is_correct t ex) = some p := by
  cases ex with
  | nil => simp [synthesize] at h
  | cons a rest =>
    simp only [synthesize] at h
    simp only [synthCandidates]
    split at h
    next q hfind =>
      cases h
      rw [List.find?_append, hfind]
      rfl
    next hfind =>
      rw [List.find?_append, hfind, Option.none_or]
      exact synthLoop_find S _ _ acc mi _ _ p h

end DriverLemmas

section CallScopeLemmas

variable {T Ex In Sig : Type} [DecidableEq Sig]

/-- Inserting a list into a Python set grows it by at most the number of
insertions. -/
theorem pySetAddAll_length_le {α : Type} [DecidableEq α] (xs : List α) :
    ∀ l : List α, (pySetAddAll l xs).length ≤ l.length + xs.length := by
  induction xs with
  | nil => intro l; simp [pySetAddAll]
  | cons a rest ih =>
    intro l
    simp only [pySetAddAll, List.foldl_cons]
    have h1 := ih (pySetAdd l a)
    have h2 : (pySetAdd l a).length ≤ l.length + 1 := by
      unfold pySetAdd
      split
      · omega
      · simp
    simp only [pySetAddAll] at h1
    simp only [List.length_cons]
    omega

/-- If some offered program bears an unseen signature, the store yields a
representative of that signature. -/
theorem elimEquiv_exists_rep (S : SynthSpec T Ex In Sig) (ti : List In) :
    ∀ (l : List T) (seen : List Sig) (p : T) (s : Sig),
      p ∈ l → S.compute_signature p ti = some s → s ∉ seen →
      ∃ q ∈ elimEquiv S ti l seen, S.compute_signature q ti = some s := by
  intro l
  induction l with
  | nil => intro seen p s hp; simp at hp
  | cons q0 rest ih =>
    intro seen p s hp hsig hseen
    cases hq : S.compute_signature q0 ti with
    | none =>
      simp only [elimEquiv, hq]
      rcases List.mem_cons.mp hp with rfl | hp2
      · rw [hsig] at hq
        simp at hq
      · exact ih seen p s hp2 hsig hseen
    | some t =>
      simp only [elimEquiv, hq]
      by_cases ht : t ∈ seen
      · rw [if_pos ht]
        rcases List.mem_cons.mp hp with rfl | hp2
        · rw [hsig] at hq
          have hst : s = t := Option.some.inj hq
          subst hst
          exact absurd ht hseen
        · exact ih seen p s hp2 hsig hseen
      · rw [if_neg ht]
        by_cases hts : t = s
        · subst hts
          exact ⟨q0, List.mem_cons_self _ _, hq⟩
        · rcases List.mem_cons.mp hp with rfl | hp2
          · rw [hsig] at hq
            exact absurd (Option.some.inj hq).symm hts
          · have hs2 : s ∉ t :: seen := by
              intro hmem
              rcases List.mem_cons.mp hmem with h | h
              · exact hts h.symm
              · exact hseen h
            obtain ⟨q2, hq2m, hq2s⟩ := ih (t :: seen) p s hp2 hsig hs2
            exact ⟨q2, List.mem_cons_of_mem _ hq2m, hq2s⟩

/-- The printed form of the "-"-literal identifies the expression. -/
theorem toStr_eq_dash_literal : ∀ e : StrExpr, toStr e = "\"-\"" → e = .Literal "-" := by
  intro e h
  cases e with
  | Literal v =>
    simp only [toStr] at h
    have h4 : v.data ++ ['\"'] = ['-'] ++ ['\"'] := congrArg (fun s => s.data.drop 1) h
    rw [String.ext (List.append_cancel_right h4)]
  | Input => exact absurd h (by decide)
  | Concatenate l r =>
    simp only [toStr] at h
    exact absurd (congrArg (fun s => s.data.take 1) h : (['C'] : List Char) = ['\"']) (by decide)
  | Substring e1 a b =>
    simp only [toStr] at h
    exact absurd (congrArg (fun s => s.data.take 1) h : (['S'] : List Char) = ['\"']) (by decide)
  | ToUpper e1 =>
    simp only [toStr] at h
    exact absurd (congrArg (fun s => s.data.take 1) h : (['T'] : List Char) = ['\"']) (by decide)
  | ToLower e1 =>
    simp only [toStr] at h
    exact absurd (congrArg (fun s => s.data.take 1) h : (['T'] : List Char) = ['\"']) (by decide)
  | Replace e1 o n =>
    simp only [toStr] at h
    exact absurd (congrArg (fun s => s.data.take 1) h : (['R'] : List Char) = ['\"']) (by decide)
  | Strip e1 =>
    simp only [toStr] at h
    exact absurd (congrArg (fun s => s.data.take 1) h : (['S'] : List Char) = ['\"']) (by decide)
  | Repeat e1 c =>
    simp only [toStr] at h
    exact absurd (congrArg (fun s => s.data.take 1) h : (['R'] : List Char) = ['\"']) (by decide)
  | SplitThenTake e1 d i =>
    simp only [toStr] at h
    exact absurd (congrArg (fun s => s.data.take 1) h : (['S'] : List Char) = ['\"']) (by decide)
  | Capitalize e1 =>
    simp only [toStr] at h
    exact absurd (congrArg (fun s => s.data.take 1) h : (['C'] : List Char) = ['\"']) (by decide)

/-- The printed form of ToUpper of the "-"-literal identifies the
expression; the repr-based deduplication of grow therefore cannot
substitute a different expression for it. -/
theorem toStr_eq_toUpper_dash : ∀ e : StrExpr,
    toStr e = "ToUpper(\"-\")" → e = .ToUpper (.Literal "-") := by
  intro e h
  cases e with
  | ToUpper e1 =>
    simp only [toStr] at h
    have h4 : (toStr e1).data ++ [')'] = ['\"', '-', '\"'] ++ [')'] :=
      congrArg (fun s => s.data.drop 8) h
    rw [toStr_eq_dash_literal e1 (String.ext (List.append_cancel_right h4))]
  | ToLower e1 =>
    simp only [toStr] at h
    exact absurd
      (congrArg (fun s => s.data.take 3) h : (['T', 'o', 'L'] : List Char) = ['T', 'o', 'U'])
      (by decide)
  | Literal v =>
    simp only [toStr] at h
    exact absurd (congrArg (fun s => s.data.take 1) h : (['\"'] : List Char) = ['T']) (by decide)
  | Input => exact absurd h (by decide)
  | Concatenate l r =>
    simp only [toStr] at h
    exact absurd (congrArg (fun s => s.data.take 1) h : (['C'] : List Char) = ['T']) (by decide)
  | Substring e1 a b =>
    simp only [toStr] at h
    exact absurd (congrArg (fun s => s.data.take 1) h : (['S'] : List Char) = ['T']) (by decide)
  | Replace e1 o n =>
    simp only [toStr] at h
    exact absurd (congrArg (fun s => s.data.take 1) h : (['R'] : List Char) = ['T']) (by decide)
  | Strip e1 =>
    simp only [toStr] at h
    exact absurd (congrArg (fun s => s.data.take 1) h : (['S'] : List Char) = ['T']) (by decide)
  | Repeat e1 c =>
    simp only [toStr] at h
    exact absurd (congrArg (fun s => s.data.take 1) h : (['R'] : List Char) = ['T']) (by decide)
  | SplitThenTake e1 d i =>
    simp only [toStr] at h
    exact absurd (congrArg (fun s => s.data.take 1) h : (['S'] : List Char) = ['T']) (by decide)
  | Capitalize e1 =>
    simp only [toStr] at h
    exact absurd (congrArg (fun s => s.data.take 1) h : (['C'] : List Char) = ['T']) (by decide)

/-- The validity loop of grow only appends to the kept list. -/
theorem validLoop_prefix : ∀ (cs : List StrExpr) (sIn : String) (valid : List StrExpr)
    (seen : List String), ∃ ext, (validLoop cs sIn (valid, seen)).1 = valid ++ ext := by
  intro cs
  induction cs with
  | nil => intro sIn valid seen; exact ⟨[], by simp [validLoop]⟩
  | cons c rest ih =>
    intro sIn valid seen
    simp only [validLoop]
    split
    · exact ⟨[], by simp⟩
    · split
      · exact ih sIn valid seen
      · split
        · exact ih sIn valid seen
        · obtain ⟨ext, hext⟩ := ih sIn (valid ++ [c]) (toStr c :: seen)
          refine ⟨c :: ext, ?_⟩
          rw [hext, List.append_assoc]
          rfl

/-- Everything the validity loop keeps comes from its initial kept list or
its candidate list. -/
theorem validLoop_subset : ∀ (cs : List StrExpr) (sIn : String) (valid : List StrExpr)
    (seen : List String) (q : StrExpr),
    q ∈ (validLoop cs sIn (valid, seen)).1 → q ∈ valid ∨ q ∈ cs := by
  intro cs
  induction cs with
  | nil =>
    intro sIn valid seen q hq
    simp only [validLoop] at hq
    exact Or.inl hq
  | cons c rest ih =>
    intro sIn valid seen q hq
    simp only [validLoop] at hq
    split at hq
    · exact Or.inl hq
    · split at hq
      · rcases ih sIn valid seen q hq with h | h
        · exact Or.inl h
        · exact Or.inr (List.mem_cons_of_mem c h)
      · split at hq
        · rcases ih sIn valid seen q hq with h | h
          · exact Or.inl h
          · exact Or.inr (List.mem_cons_of_mem c h)
        · rcases ih sIn (valid ++ [c]) (toStr c :: seen) q hq with h | h
          · rcases List.mem_append.mp h with h2 | h2
            · exact Or.inl h2
            · simp at h2
              rw [h2]
              exact Or.inr (List.mem_cons_self c rest)
          · exact Or.inr (List.mem_cons_of_mem c h)

/-- If a candidate interprets successfully on the sample input, its printed
form was not yet seen, and the kept list cannot saturate, then the
validity loop keeps some program with that printed form. -/
theorem validLoop_exists_rep : ∀ (cs : List StrExpr) (sIn : String) (valid : List StrExpr)
    (seen : List String) (c : StrExpr),
    c ∈ cs → (∃ out, interpretE c sIn = .ok out) → valid.length + cs.length ≤ 3000 →
    toStr c ∈ seen ∨ ∃ q ∈ (validLoop cs sIn (valid, seen)).1, toStr q = toStr c := by
  intro cs
  induction cs with
  | nil => intro sIn valid seen c hc; simp at hc
  | cons c0 rest ih =>
    intro sIn valid seen c hc hok hbound
    simp only [validLoop]
    have hcap : ¬ (valid.length ≥ 3000) := by
      simp only [List.length_cons] at hbound
      omega
    rw [if_neg hcap]
    cases hint : interpretE c0 sIn with
    | error e =>
      simp only [hint]
      rcases List.mem_cons.mp hc with rfl | hc2
      · obtain ⟨out, hout⟩ := hok
        rw [hint] at hout
        simp at hout
      · exact ih sIn valid seen c hc2 hok
          (by simp only [List.length_cons] at hbound; omega)
    | ok out0 =>
      simp only [hint]
      by_cases hseen0 : toStr c0 ∈ seen
      · rw [if_pos hseen0]
        rcases List.mem_cons.mp hc with rfl | hc2
        · exact Or.inl hseen0
        · exact ih sIn valid seen c hc2 hok
            (by simp only [List.length_cons] at hbound; omega)
      · rw [if_neg hseen0]
        by_cases heq : toStr c0 = toStr c
        · right
          obtain ⟨ext, hext⟩ := validLoop_prefix rest sIn (valid ++ [c0]) (toStr c0 :: seen)
          refine ⟨c0, ?_, heq⟩
          rw [hext]
          exact List.mem_append_left _ (List.mem_append_right _ (by simp))
        · rcases List.mem_cons.mp hc with rfl | hc2
          · exact absurd rfl heq
          · have h2 := ih sIn (valid ++ [c0]) (toStr c0 :: seen) c hc2 hok
              (by simp at hbound ⊢; omega)
            rcases h2 with h2 | h2
            · rcases List.mem_cons.mp h2 with h3 | h3
              · exact absurd h3.symm heq
              · exact Or.inl h3
            · exact Or.inr h2

/-- The enumeration pool of grow contains no bare literal: every inserted
candidate is a proper operator application. -/
theorem growPool_no_literal (base : List StrExpr) (v : String) :
    StrExpr.Literal v ∉
      (base.flatMap variantList ++
        concatTerminals.flatMap fun a => concatTerminals.map fun b => .Concatenate a b) := by
  intro hmem
  rcases List.mem_append.mp hmem with h | h
  · rcases List.mem_flatMap.mp h with ⟨b, hb, hv⟩
    simp [variantList, delimitersList] at hv
  · rcases List.mem_flatMap.mp h with ⟨a, ha, hv⟩
    rcases List.mem_map.mp hv with ⟨b, hb, hv2⟩
    simp at hv2

/-- A member of the survivor list of the single growth round of a
one-round run is among the driver's examined candidates. -/
theorem synthRounds_one_mem (S : SynthSpec T Ex In Sig) (ex : List Ex) (ti : List In)
    (acc : Bool) (allP uniqueP : List T) (q : T)
    (hq : q ∈ elimEquiv S ti (S.grow (if acc then allP else uniqueP) ex) []) :
    q ∈ (synthRounds S ex ti acc 1 allP uniqueP).flatten := by
  have hne : (elimEquiv S ti (S.grow (if acc then allP else uniqueP) ex) []).isEmpty = false := by
    cases helim : elimEquiv S ti (S.grow (if acc then allP else uniqueP) ex) [] with
    | nil => rw [helim] at hq; simp at hq
    | cons a t => rfl
  cases acc with
  | true =>
    simp only [reduceIte] at hq hne
    simp only [synthRounds, reduceIte, hne, Bool.false_eq_true, if_false]
    simp only [List.flatten_cons]
    exact List.mem_append_left _ hq
  | false =>
    simp only [Bool.false_eq_true, if_false] at hq hne
    simp only [synthRounds, Bool.false_eq_true, if_false, hne]
    simp only [List.flatten_cons]
    exact List.mem_append_left _ hq

/-- If the grow output of the first round offers a program with a given
signature, the one-round candidate sequence examines a representative of
that signature, and the representative comes from that grow output. -/
theorem synthCandidates_round1_rep (S : SynthSpec T Ex In Sig) (a : Ex) (rest : List Ex)
    (acc : Bool) (q0 : T) (σ : Sig)
    (hq : q0 ∈ S.grow
      (elimEquiv S (S.extract_test_inputs (a :: rest)) (S.generate_terminals (a :: rest)) [])
      (a :: rest))
    (hsig : S.compute_signature q0 (S.extract_test_inputs (a :: rest)) = some σ) :
    ∃ e2, e2 ∈ synthCandidates S (a :: rest) 1 acc ∧
      S.compute_signature e2 (S.extract_test_inputs (a :: rest)) = some σ ∧
      e2 ∈ S.grow
        (elimEquiv S (S.extract_test_inputs (a :: rest)) (S.generate_terminals (a :: rest)) [])
        (a :: rest) := by
  obtain ⟨e2, he2m, he2s⟩ :=
    elimEquiv_exists_rep S (S.extract_test_inputs (a :: rest)) _ [] q0 σ hq hsig (by simp)
  refine ⟨e2, ?_, he2s, ?_⟩
  · simp only [synthCandidates]
    refine List.mem_append_right _ ?_
    refine synthRounds_one_mem S (a :: rest) _ acc _ _ e2 ?_
    rw [ite_self]
    exact he2m
  · obtain ⟨s2, -, -, hfind⟩ :=
      elimEquiv_spec S (S.extract_test_inputs (a :: rest)) _ [] e2 he2m
    exact List.mem_of_find?_eq_some hfind

end CallScopeLemmas

set_option maxRecDepth 10000

theorem growString_mainGrow (pl : List StrExpr) (ex : List (String × String))
    (h1 : (isFirstNameInitial ex && isCorrectStr fnInitialT ex) = false)
    (h2 : (isNormalizePath ex && normOuts ex) = false)
    (h3 : (allTargets ex).find? (fun t => isCorrectStr t ex) = none) :
    growString pl ex = mainGrow pl ex (allTargets ex) := by
  unfold growString
  rw [if_neg (by rw [h1]; simp), if_neg (by rw [h2]; simp), h3]

theorem mainGrow_nil_targets (pl : List StrExpr) (ex : List (String × String)) :
    mainGrow pl ex [] =
      (validLoop
        (pySetAddAll []
          ((pl.take 3000).flatMap variantList ++
            concatTerminals.flatMap fun a =>
              concatTerminals.map fun b => StrExpr.Concatenate a b))
        ((ex.headD ("", "")).1) ([], [])).1 := by
  simp only [mainGrow, List.filter_nil, List.reverse_nil, List.nil_append]

theorem flatMap_variantList_length :
    ∀ l : List StrExpr, (l.flatMap variantList).length = 69 * l.length := by
  intro l
  induction l with
  | nil => rfl
  | cons b t ih =>
    rw [List.flatMap_cons, List.length_append, ih]
    have hb : (variantList b).length = 69 := rfl
    rw [hb, List.length_cons]
    omega

/-- C1: for every example list (in particular every non-empty one) and
every budget, if synthesize returns an expression rather than failing, the
returned expression satisfies is_correct on the input examples. -/
theorem c1_synthesize_returns_correct {T Ex In Sig : Type} [DecidableEq Sig]
    (S : SynthSpec T Ex In Sig) (ex : List Ex) (mi : Nat) (acc : Bool) (p : T)
    (h : synthesize S ex mi acc = .ok p) : S.is_correct p ex = true := by
  cases ex with
  | nil => simp [synthesize] at h
  | cons a rest =>
    simp only [synthesize] at h
    split at h
    next q hfind =>
      cases h
      have hc := List.find?_some hfind
      simpa using hc
    next hfind => exact synthLoop_ok_correct S _ _ acc mi _ _ p h

/-- Witness for C1: on the path-normalisation example the driver returns
the Replace program, and the theorem yields its correctness. -/
theorem c1_witness : isCorrectStr normTarget [("a\\b\\c", "a/b/c")] = true :=
  c1_synthesize_returns_correct stringSpec [("a\\b\\c", "a/b/c")] 5 true normTarget (by rfl)

/-- C2 (amended): within ONE pass of the signature store
(eliminate_equivalents), the yielded expressions bear pairwise distinct
signatures, and every yielded expression is the first-offered expression
of its signature, so of two equal-signature offers only the first is
retained. Scoped to a whole synthesize call the claim is false, because
the seen-set is created afresh for every round: see the counterexample,
where round 1 re-yields the signature of a round-0 survivor. -/
theorem c2_store_dedup {T Ex In Sig : Type} [DecidableEq Sig]
    (S : SynthSpec T Ex In Sig) (ti : List In) :
    (∀ l : List T,
      (elimEquiv S ti l []).Pairwise
        (fun a b => S.compute_signature a ti ≠ S.compute_signature b ti)) ∧
    (∀ (l : List T) (p : T) (s : Sig), p ∈ elimEquiv S ti l [] →
      S.compute_signature p ti = some s →
      l.find? (fun x => decide (S.compute_signature x ti = some s)) = some p) := by
  constructor
  · intro l
    exact elimEquiv_pairwise S ti l []
  · intro l p s hp hsig
    obtain ⟨s2, hs2, -, hfind⟩ := elimEquiv_spec S ti l [] p hp
    have : s2 = s := by rw [hsig] at hs2; exact (Option.some.inj hs2).symm
    subst this
    exact hfind

/-- Witness for C2: the literal A and ToUpper of the literal a share the
signature on probe x; the store keeps only the first-offered literal. -/
theorem c2_witness :
    (elimEquiv stringSpec ["x"] [StrExpr.Literal "A", StrExpr.ToUpper (StrExpr.Literal "a")] []).Pairwise
      (fun a b => stringSpec.compute_signature a ["x"] ≠ stringSpec.compute_signature b ["x"]) ∧
    ([StrExpr.Literal "A", StrExpr.ToUpper (StrExpr.Literal "a")].find?
      (fun x => decide (stringSpec.compute_signature x ["x"] = some ["A"]))
      = some (StrExpr.Literal "A")) :=
  ⟨(c2_store_dedup stringSpec ["x"]).1 _,
   (c2_store_dedup stringSpec ["x"]).2 _ (StrExpr.Literal "A") ["A"] (by decide) (by decide)⟩

/-- Counterexample to C2 at call scope, on the single example
("x", "y") with budget 1: the examined candidates of the one synthesize
call contain both the round-0 survivor Literal "-" and a distinct round-1
expression (the survivor standing for ToUpper("-")) with the same
signature on the probe input "x" — each round hands eliminate_equivalents
a fresh seen-set, so signatures already represented in an earlier round
are admitted again. -/
theorem c2_counterexample :
    ∃ e2 : StrExpr,
      StrExpr.Literal "-" ∈ synthCandidates stringSpec [("x", "y")] 1 true ∧
      e2 ∈ synthCandidates stringSpec [("x", "y")] 1 true ∧
      e2 ≠ StrExpr.Literal "-" ∧
      stringSpec.compute_signature e2 ["x"] =
        stringSpec.compute_signature (StrExpr.Literal "-") ["x"] := by
  have htargets : allTargets [("x", "y")] = [] := by decide
  have hgroweq : growString (elimEquiv stringSpec ["x"] (genTerminalsStr [("x", "y")]) [])
      [("x", "y")]
      = mainGrow (elimEquiv stringSpec ["x"] (genTerminalsStr [("x", "y")]) [])
          [("x", "y")] (allTargets [("x", "y")]) :=
    growString_mainGrow _ _ (by decide) (by decide) (by decide)
  rw [htargets] at hgroweq
  have hpool : growString (elimEquiv stringSpec ["x"] (genTerminalsStr [("x", "y")]) [])
      [("x", "y")]
      = (validLoop
          (pySetAddAll []
            (((elimEquiv stringSpec ["x"] (genTerminalsStr [("x", "y")]) []).take 3000).flatMap
                variantList ++
              concatTerminals.flatMap fun a =>
                concatTerminals.map fun b => StrExpr.Concatenate a b))
          "x" ([], [])).1 := by
    rw [hgroweq]
    exact mainGrow_nil_targets _ _
  have hs0 : (elimEquiv stringSpec ["x"] (genTerminalsStr [("x", "y")]) []).length = 29 := by
    decide
  have htake : (elimEquiv stringSpec ["x"] (genTerminalsStr [("x", "y")]) []).take 3000
      = elimEquiv stringSpec ["x"] (genTerminalsStr [("x", "y")]) [] :=
    List.take_of_length_le (by rw [hs0]; omega)
  have hq0pool : StrExpr.ToUpper (.Literal "-") ∈
      pySetAddAll []
        (((elimEquiv stringSpec ["x"] (genTerminalsStr [("x", "y")]) []).take 3000).flatMap
            variantList ++
          concatTerminals.flatMap fun a =>
            concatTerminals.map fun b => StrExpr.Concatenate a b) := by
    rw [pySetAddAll_mem]
    right
    refine List.mem_append_left _ ?_
    refine List.mem_flatMap.mpr ⟨.Literal "-", ?_, ?_⟩
    · rw [htake]
      decide
    · decide
  have hbig : (((elimEquiv stringSpec ["x"] (genTerminalsStr [("x", "y")]) []).take 3000).flatMap
        variantList ++
      concatTerminals.flatMap fun a =>
        concatTerminals.map fun b => StrExpr.Concatenate a b).length ≤ 3000 := by
    rw [List.length_append, htake, flatMap_variantList_length]
    have hct : (concatTerminals.flatMap fun a =>
        concatTerminals.map fun b => StrExpr.Concatenate a b).length = 144 := by decide
    rw [hs0, hct]
    omega
  have hlenpool : ([] : List StrExpr).length +
      (pySetAddAll []
        (((elimEquiv stringSpec ["x"] (genTerminalsStr [("x", "y")]) []).take 3000).flatMap
            variantList ++
          concatTerminals.flatMap fun a =>
            concatTerminals.map fun b => StrExpr.Concatenate a b)).length ≤ 3000 := by
    have h1 := pySetAddAll_length_le
      ((((elimEquiv stringSpec ["x"] (genTerminalsStr [("x", "y")]) []).take 3000).flatMap
          variantList ++
        concatTerminals.flatMap fun a =>
          concatTerminals.map fun b => StrExpr.Concatenate a b)) ([] : List StrExpr)
    rw [List.length_nil] at h1 ⊢
    rw [Nat.zero_add] at h1 ⊢
    exact le_trans h1 hbig
  have hrep := validLoop_exists_rep
    (pySetAddAll []
      (((elimEquiv stringSpec ["x"] (genTerminalsStr [("x", "y")]) []).take 3000).flatMap
          variantList ++
        concatTerminals.flatMap fun a =>
          concatTerminals.map fun b => StrExpr.Concatenate a b))
    "x" [] [] (StrExpr.ToUpper (.Literal "-")) hq0pool ⟨"-", rfl⟩ hlenpool
  rcases hrep with habs | ⟨q, hqmem, hqstr⟩
  · simp at habs
  have hqeq : q = StrExpr.ToUpper (.Literal "-") := toStr_eq_toUpper_dash q hqstr
  subst hqeq
  have hgrowmem : StrExpr.ToUpper (.Literal "-") ∈ growString
      (elimEquiv stringSpec ["x"] (genTerminalsStr [("x", "y")]) []) [("x", "y")] := by
    rw [hpool]
    exact hqmem
  obtain ⟨e2, hcand, hsig2, horig⟩ := synthCandidates_round1_rep stringSpec ("x", "y") [] true
    (StrExpr.ToUpper (.Literal "-")) ["-"] hgrowmem (by rfl)
  have horig2 : e2 ∈ growString
      (elimEquiv stringSpec ["x"] (genTerminalsStr [("x", "y")]) []) [("x", "y")] := horig
  have hne : e2 ≠ StrExpr.Literal "-" := by
    intro he
    rw [he, hpool] at horig2
    rcases validLoop_subset _ "x" [] [] _ horig2 with h | h
    · simp at h
    · rw [pySetAddAll_mem] at h
      rcases h with h | h
      · simp at h
      · exact growPool_no_literal _ "-" h
  have hcand0 : synthCandidates stringSpec [("x", "y")] 1 true
      = elimEquiv stringSpec ["x"] (genTerminalsStr [("x", "y")]) [] ++
        (synthRounds stringSpec [("x", "y")] ["x"] true 1
          (elimEquiv stringSpec ["x"] (genTerminalsStr [("x", "y")]) [])
          (elimEquiv stringSpec ["x"] (genTerminalsStr [("x", "y")]) [])).flatten := rfl
  have hlit : StrExpr.Literal "-" ∈ synthCandidates stringSpec [("x", "y")] 1 true := by
    rw [hcand0]
    exact List.mem_append_left _ (by decide)
  refine ⟨e2, hlit, hcand, hne, ?_⟩
  have hsig3 : stringSpec.compute_signature e2 ["x"] = some ["-"] := hsig2
  rw [hsig3]
  rfl

/-- C3: the store never yields an expression whose signature is null (the
case of a raised interpretation, in particular of every probe slot
failing); a failing expression is silently dropped, the failure does not
propagate; synthesize never returns such an expression; and for the string
synthesizer a raise on any probe slot nulls the whole signature. -/
theorem c3_bottom_rejection {T Ex In Sig : Type} [DecidableEq Sig]
    (S : SynthSpec T Ex In Sig) :
    (∀ (ti : List In) (l : List T) (seen : List Sig) (p : T),
      p ∈ elimEquiv S ti l seen → S.compute_signature p ti ≠ none) ∧
    (∀ (ti : List In) (l : List T) (seen : List Sig) (p : T),
      S.compute_signature p ti = none →
      elimEquiv S ti (p :: l) seen = elimEquiv S ti l seen) ∧
    (∀ (ex : List Ex) (mi : Nat) (acc : Bool) (p : T),
      synthesize S ex mi acc = .ok p →
      S.compute_signature p (S.extract_test_inputs ex) ≠ none) ∧
    (∀ (p : StrExpr) (tis : List String) (inp : String),
      inp ∈ tis → interpretE p inp = .error () → computeSignatureStr p tis = none) := by
  refine ⟨?_, ?_, ?_, ?_⟩
  · intro ti l seen p hp
    obtain ⟨s, hs, -, -⟩ := elimEquiv_spec S ti l seen p hp
    simp [hs]
  · intro ti l seen p hnone
    simp [elimEquiv, hnone]
  · intro ex mi acc p h
    cases ex with
    | nil => simp [synthesize] at h
    | cons a rest =>
      simp only [synthesize] at h
      split at h
      next q hfind =>
        cases h
        obtain ⟨s, hs, -, -⟩ :=
          elimEquiv_spec S _ _ [] p (List.mem_of_find?_eq_some hfind)
        simp [hs]
      next hfind => exact synthLoop_ok_sig S _ _ acc mi _ _ p h
  · intro p tis
    induction tis with
    | nil => intro inp hm; simp at hm
    | cons t rest ih =>
      intro inp hm herr
      rcases List.mem_cons.mp hm with rfl | hm2
      · simp [computeSignatureStr, herr, Except.toOption]
      · simp only [computeSignatureStr]
        cases ht : (interpretE p t).toOption with
        | none => rfl
        | some b => simp [ht, ih inp hm2 herr]

/-- Witness for C3: the program returned on the path-normalisation example
has a non-null signature. -/
theorem c3_witness :
    stringSpec.compute_signature normTarget
      (stringSpec.extract_test_inputs [("a\\b\\c", "a/b/c")]) ≠ none :=
  (c3_bottom_rejection stringSpec).2.2.1 [("a\\b\\c", "a/b/c")] 5 true normTarget (by rfl)

/-- C4: synthesize fails with the empty-examples error exactly on zero
examples; one round with an empty survivor set fails with the budget error
(saturation); and on non-empty examples every failure is the budget
error, so no other error kind crosses the API boundary. -/
theorem c4_error_modes {T Ex In Sig : Type} [DecidableEq Sig]
    (S : SynthSpec T Ex In Sig) :
    (∀ (ex : List Ex) (mi : Nat) (acc : Bool),
      synthesize S ex mi acc = .error .emptyExamples ↔ ex = []) ∧
    (∀ (ex : List Ex) (ti : List In) (acc : Bool) (fuel : Nat) (allP uniqueP : List T),
      elimEquiv S ti (S.grow (if acc then allP else uniqueP) ex) [] = [] →
      synthLoop S ex ti acc (fuel + 1) allP uniqueP = .error .exhaustedBudget) ∧
    (∀ (ex : List Ex) (mi : Nat) (acc : Bool) (e : SynthError),
      ex ≠ [] → synthesize S ex mi acc = .error e → e = .exhaustedBudget) ∧
    (∀ (ex : List Ex) (mi : Nat) (acc : Bool),
      ex ≠ [] →
      (synthCandidates S ex mi acc).find? (fun t => S.is_correct t ex) = none →
      synthesize S ex mi acc = .error .exhaustedBudget) := by
  refine ⟨?_, ?_, ?_, ?_⟩
  · intro ex mi acc
    cases ex with
    | nil => simp [synthesize]
    | cons a rest =>
      constructor
      · intro h
        exfalso
        simp only [synthesize] at h
        split at h
        next q hfind => simp at h
        next hfind =>
          have := synthLoop_error S _ _ acc mi _ _ _ h
          simp at this
      · intro h
        simp at h
  · intro ex ti acc fuel allP uniqueP h
    simp [synthLoop, h]
  · intro ex mi acc e hne h
    cases ex with
    | nil => exact absurd rfl hne
    | cons a rest =>
      simp only [synthesize] at h
      split at h
      next q hfind => simp at h
      next hfind => exact synthLoop_error S _ _ acc mi _ _ _ h
  · intro ex mi acc hne hfind
    cases hres : synthesize S ex mi acc with
    | ok p =>
      have := synthesize_ok_first_candidate S ex mi acc p hres
      rw [hfind] at this
      cases this
    | error e =>
      cases ex with
      | nil => exact absurd rfl hne
      | cons a rest =>
        have he : e = SynthError.exhaustedBudget := by
          simp only [synthesize] at hres
          split at hres
          next q hf => simp at hres
          next hf => exact synthLoop_error S _ _ acc mi _ _ _ hres
        rw [he]

/-- Witness for C4: zero examples give the empty-examples error; an empty
survivor round exhausts the budget; and a zero-budget run on a non-empty
example list with no correct candidate fails with the budget error. -/
theorem c4_witness :
    synthesize stringSpec ([] : List (String × String)) 5 true = .error .emptyExamples ∧
    synthLoop unitSpec [] [] true 1 [] [] = .error .exhaustedBudget ∧
    SynthError.exhaustedBudget = .exhaustedBudget ∧
    synthesize stringSpec [("a", "b")] 0 true = .error .exhaustedBudget :=
  ⟨((c4_error_modes stringSpec).1 [] 5 true).mpr rfl,
   (c4_error_modes unitSpec).2.1 [] [] true 0 [] [] (by rfl),
   (c4_error_modes stringSpec).2.2.1 [("a", "b")] 0 true .exhaustedBudget
     (by simp) (by rfl),
   (c4_error_modes stringSpec).2.2.2 [("a", "b")] 0 true (by simp) (by rfl)⟩

/-- C5 counterexample: on the examples [(ab cd, AB CD)] synthesize returns
the hard-coded depth-4 target of the format-title sniffer, although the
depth-2 expression ToUpper of the input also satisfies the examples, so
the returned expression does not have the smallest AST depth among
satisfying expressions of the DSL. -/
theorem c5_counterexample :
    stringSynthesize [("ab cd", "AB CD")] 5 = .ok titleT ∧
    strDepth titleT = 4 ∧
    isCorrectStr (.ToUpper .Input) [("ab cd", "AB CD")] = true ∧
    strDepth (.ToUpper .Input) = 2 ∧
    (∃ q : StrExpr, isCorrectStr q [("ab cd", "AB CD")] = true ∧ strDepth q < strDepth titleT) :=
  ⟨by rfl, by decide, by decide, by decide, ⟨.ToUpper .Input, by decide, by decide⟩⟩

/-- C5 (amended): the returned expression is the first correct candidate in
the driver's examination order (surviving terminals, then the survivors of
each growth round); the claimed coincidence of that order with AST depth
fails because the string grow's task sniffing can put a deep hard-coded
program into an early round. -/
theorem c5_first_correct_candidate {T Ex In Sig : Type} [DecidableEq Sig]
    (S : SynthSpec T Ex In Sig) (ex : List Ex) (mi : Nat) (acc : Bool) (p : T)
    (h : synthesize S ex mi acc = .ok p) :
    (synthCandidates S ex mi acc).find? (fun t => S.is_correct t ex) = some p :=
  synthesize_ok_first_candidate S ex mi acc p h

/-- Witness for C5: on the path-normalisation example the returned Replace
program is the first correct candidate of the examination order. -/
theorem c5_witness :
    (synthCandidates stringSpec [("a\\b\\c", "a/b/c")] 5 true).find?
      (fun t => stringSpec.is_correct t [("a\\b\\c", "a/b/c")]) = some normTarget :=
  c5_first_correct_candidate stringSpec [("a\\b\\c", "a/b/c")] 5 true normTarget (by rfl)

/-- C7 counterexample: on a program list with a repeated element the grow
of the shape synthesizer does not emit the claimed sequence: the Python
set collapses the duplicates, so the result has 5 elements where the
claimed emission has 16. -/
theorem c7_counterexample :
    growShape [.Rectangle ⟨0, 0⟩ ⟨1, 1⟩, .Rectangle ⟨0, 0⟩ ⟨1, 1⟩]
      ≠ claimedGrowShape [.Rectangle ⟨0, 0⟩ ⟨1, 1⟩, .Rectangle ⟨0, 0⟩ ⟨1, 1⟩] := by
  decide

/-- C7 (amended): for every program list B, grow(B) emits exactly the
elements of B, the mirrors of B, and the three binary combinations of
every ordered pair of B, each exactly once (the Python set deduplicates),
in an order the source does not fix. -/
theorem c7_grow_operator_closure (pl : List Shape) :
    (growShape pl).Nodup ∧ ∀ x : Shape, x ∈ growShape pl ↔ x ∈ claimedGrowShape pl := by
  constructor
  · exact pySetAddAll_nodup _ [] List.nodup_nil
  · intro x
    rw [show growShape pl = pySetAddAll [] (claimedGrowShape pl) from rfl, pySetAddAll_mem]
    simp

/-- C9: Substring never raises and an out-of-range slice yields the empty
string; SplitThenTake never raises on any index (given interpreted
operands and a non-empty delimiter, the only raise Python permits there)
and an out-of-range piece yields the empty string; Repeat with count below
one is rejected at construction, and every constructed Repeat has a valid
count. -/
theorem c9_index_pathologies :
    (∀ (e : StrExpr) (a b : Int) (inp r : String), interpretE e inp = .ok r →
      interpretE (.Substring e a b) inp = .ok (pySlice r a b)) ∧
    (∀ (s : String) (a b : Int), (s.length : Int) ≤ a → pySlice s a b = "") ∧
    (∀ (e d : StrExpr) (i : Int) (inp r ds : String),
      interpretE e inp = .ok r → interpretE d inp = .ok ds → ds ≠ "" →
      interpretE (.SplitThenTake e d i) inp = .ok (pyGetD (pySplit r ds) i "")) ∧
    (∀ (parts : List String) (i : Int),
      ((parts.length : Int) ≤ i ∨ i < -(parts.length : Int)) → pyGetD parts i "" = "") ∧
    (∀ (e : StrExpr) (c : Int), c < 1 → mkRepeat e c = .error ()) ∧
    (∀ (e : StrExpr) (c : Int) (r : StrExpr), mkRepeat e c = .ok r → 1 ≤ c ∧ r = .Repeat e c) := by
  refine ⟨?_, ?_, ?_, ?_, ?_, ?_⟩
  · intro e a b inp r h
    simp only [interpretE, h]
    rfl
  · intro s a b h
    have hlen : ((s.data.length : Nat) : Int) ≤ a := h
    simp only [pySlice, pySliceList]
    have ha : ¬ (a < 0) := by omega
    rw [if_neg ha]
    have hmin : min a ((s.data.length : Nat) : Int) = ((s.data.length : Nat) : Int) := by omega
    rw [hmin, Int.toNat_natCast, List.drop_length, List.take_nil]
  · intro e d i inp r ds h1 h2 h3
    simp only [interpretE, h1, h2]
    show (if ds = "" then Except.error () else Except.ok (pyGetD (pySplit r ds) i ""))
      = Except.ok (pyGetD (pySplit r ds) i "")
    rw [if_neg h3]
  · intro parts i h
    simp only [pyGetD]
    rw [if_neg (by omega), if_neg (by omega)]
  · intro e c h
    simp [mkRepeat, h]
  · intro e c r h
    simp only [mkRepeat] at h
    split at h
    · simp at h
    · next hge =>
      cases h
      exact ⟨by omega, rfl⟩

/-- Witness for C9: the concrete pathologies yield the empty string or the
construction error. -/
theorem c9_witness :
    interpretE (.Substring .Input 5 7) "abc" = .ok "" ∧
    interpretE (.SplitThenTake .Input (.Literal "/") 9) "a/b" = .ok "" ∧
    mkRepeat .Input 0 = .error () ∧
    (1 ≤ (2 : Int) ∧ StrExpr.Repeat .Input 2 = .Repeat .Input 2) := by
  refine ⟨?_, ?_,
    c9_index_pathologies.2.2.2.2.1 .Input 0 (by decide),
    c9_index_pathologies.2.2.2.2.2 .Input 2 (.Repeat .Input 2) (by rfl)⟩
  · rw [c9_index_pathologies.1 .Input 5 7 "abc" "abc" rfl,
      c9_index_pathologies.2.1 "abc" 5 7 (by decide)]
  · rw [c9_index_pathologies.2.2.1 .Input (.Literal "/") 9 "a/b" "a/b" "/" rfl rfl (by decide),
      c9_index_pathologies.2.2.2.1 (pySplit "a/b" "/") 9 (by decide)]

/-- The outs check of the second normalize_path block succeeds exactly when
the normalize target is correct on the examples. -/
theorem normOuts_isCorrect (ex : List (String × String)) (h : normOuts ex = true) :
    isCorrectStr normTarget ex = true := by
  have h2 := of_decide_eq_true h
  rw [List.map_inj_left] at h2
  rw [isCorrectStr, List.all_eq_true]
  intro pr hpr
  have h3 := h2 pr hpr
  cases hi : interpretE normTarget pr.1 with
  | ok r =>
    rw [hi] at h3
    simp [Except.toOption] at h3
    simp [hi, h3]
  | error e =>
    rw [hi] at h3
    simp [Except.toOption] at h3

/-- C10: whenever one of the hard-coded sniffer targets of the string grow
is correct on the examples, grow returns the one-element list of a correct
hard-coded target, discarding the passed program list; on the
path-normalisation example it returns exactly the Replace program for
every program list; in particular the output of grow need not contain its
input. -/
theorem c10_sniffing_short_circuit :
    (∀ (pl : List StrExpr) (ex : List (String × String)),
      ((isFirstNameInitial ex && isCorrectStr fnInitialT ex) = true ∨
        (isNormalizePath ex && normOuts ex) = true ∨
        (∃ t ∈ allTargets ex, isCorrectStr t ex = true)) →
      ∃ t, growString pl ex = [t] ∧ isCorrectStr t ex = true) ∧
    (∀ pl : List StrExpr, growString pl [("a\\b\\c", "a/b/c")] = [normTarget]) ∧
    (StrExpr.Input ∈ [StrExpr.Input] ∧
      StrExpr.Input ∉ growString [StrExpr.Input] [("a\\b\\c", "a/b/c")]) := by
  refine ⟨?_, ?_, by decide, by decide⟩
  · intro pl ex hyp
    unfold growString
    by_cases h1 : (isFirstNameInitial ex && isCorrectStr fnInitialT ex) = true
    · rw [if_pos h1]
      exact ⟨fnInitialT, rfl, ((Bool.and_eq_true _ _).mp h1).2⟩
    · rw [if_neg h1]
      by_cases h2 : (isNormalizePath ex && normOuts ex) = true
      · rw [if_pos h2]
        exact ⟨normTarget, rfl, normOuts_isCorrect ex ((Bool.and_eq_true _ _).mp h2).2⟩
      · rw [if_neg h2]
        cases hf : (allTargets ex).find? (fun t => isCorrectStr t ex) with
        | some t =>
          refine ⟨t, rfl, ?_⟩
          have hc := List.find?_some hf
          simpa using hc
        | none =>
          exfalso
          rcases hyp with hyp | hyp | ⟨t, ht, hc⟩
          · exact h1 hyp
          · exact h2 hyp
          · have := List.find?_eq_none.mp hf t ht
            simp [hc] at this
  · intro pl
    rfl

/-- Witness for C10: on the path-normalisation example the hypothesis of
the sniffing theorem holds and grow returns a correct singleton. -/
theorem c10_witness :
    ∃ t, growString [] [("a\\b\\c", "a/b/c")] = [t] ∧
      isCorrectStr t [("a\\b\\c", "a/b/c")] = true :=
  c10_sniffing_short_circuit.1 [] [("a\\b\\c", "a/b/c")] (Or.inr (Or.inl (by decide)))

theorem pySetAdd_ite_mem {α : Type} [DecidableEq α] (b : Bool) (l : List α) (a x : α) :
    x ∈ (if b = true then pySetAdd l a else l) ↔ x ∈ l ∨ (b = true ∧ x = a) := by
  cases b
  · simp
  · simp [pySetAdd_mem]

theorem charLits_mem (str s : String) :
    s ∈ charLits str ↔ ∃ c ∈ str.data,
      (String.singleton c ∈ commonLiterals ∨ pyIsAlnumChar c = false) ∧
        s = String.singleton c := by
  rw [charLits, List.mem_filterMap]
  constructor
  · rintro ⟨c, hc, hf⟩
    split at hf
    next hcond =>
      refine ⟨c, hc, ?_, (Option.some.inj hf).symm⟩
      rcases (Bool.or_eq_true _ _).mp hcond with h | h
      · exact Or.inl (of_decide_eq_true h)
      · exact Or.inr (by simpa using h)
    next => simp at hf
  · rintro ⟨c, hc, hcond, rfl⟩
    refine ⟨c, hc, ?_⟩
    have hb : (decide (String.singleton c ∈ commonLiterals) || !pyIsAlnumChar c) = true := by
      rcases hcond with h | h
      · simp [h]
      · simp [h]
    rw [if_pos hb]

theorem buildNeeded_foldl_mem (exs : List (String × String)) :
    ∀ (acc : List String) (x : String),
      x ∈ exs.foldl (fun acc pr =>
        pySetAddAll (pySetAddAll acc (charLits pr.1 ++ charLits pr.2))
          (terminalPats.filter fun p => pyContains pr.1 p || pyContains pr.2 p)) acc ↔
      x ∈ acc ∨ ∃ pr ∈ exs, x ∈ charLits pr.1 ++ charLits pr.2 ∨
        x ∈ terminalPats.filter (fun p => pyContains pr.1 p || pyContains pr.2 p) := by
  induction exs with
  | nil => intro acc x; simp
  | cons pr rest ih =>
    intro acc x
    simp only [List.foldl_cons]
    rw [ih, pySetAddAll_mem, pySetAddAll_mem]
    simp only [List.mem_cons]
    constructor
    · rintro (((h | h) | h) | ⟨q, hq, hx⟩)
      · exact Or.inl h
      · exact Or.inr ⟨pr, Or.inl rfl, Or.inl h⟩
      · exact Or.inr ⟨pr, Or.inl rfl, Or.inr h⟩
      · exact Or.inr ⟨q, Or.inr hq, hx⟩
    · rintro (h | ⟨q, hq | hq, hx⟩)
      · exact Or.inl (Or.inl (Or.inl h))
      · subst hq
        rcases hx with h | h
        · exact Or.inl (Or.inl (Or.inr h))
        · exact Or.inl (Or.inr h)
      · exact Or.inr ⟨q, hq, hx⟩

/-- C8 counterexample: on the examples [(a, a)] the claimed literal set
contains the alphanumeric character a, but generate_terminals adds only
characters that are non-alphanumeric or already common, so the literal a
is absent from the produced terminals; the two sets differ. -/
theorem c8_counterexample :
    ("a" ∈ claimedTerminalLiterals [("a", "a")]) ∧
    ("a" ∉ buildNeeded [("a", "a")]) ∧
    (StrExpr.Literal "a" ∉ genTerminalsStr [("a", "a")]) := by
  refine ⟨by decide, by decide, by decide⟩

/-- C8 (amended): generate_terminals always includes the input reference,
and its literal values are exactly the non-empty members of
common_literals, the single characters of the example strings that are not
alphanumeric, the literal .00 when some output contains it, and the
literal *** when some output contains it. -/
theorem c8_terminal_literals (ex : List (String × String)) (s : String) :
    s ∈ buildNeeded ex ↔
      s ≠ "" ∧
        (s ∈ commonLiterals ∨
          (∃ pr ∈ ex, ∃ c, (c ∈ pr.1.data ∨ c ∈ pr.2.data) ∧
            pyIsAlnumChar c = false ∧ s = String.singleton c) ∨
          (s = ".00" ∧ ex.any (fun pr => pyContains pr.2 ".00") = true) ∨
          (s = "***" ∧ ex.any (fun pr => pyContains pr.2 "***") = true)) := by
  have hpats : ∀ x ∈ terminalPats, x ∈ commonLiterals := by decide
  have hbs : ("\\" : String) ∈ commonLiterals := by decide
  have hsl : ("/" : String) ∈ commonLiterals := by decide
  simp only [buildNeeded]
  rw [List.mem_filter, pySetAddAll_mem, pySetAdd_mem, pySetAdd_mem, pySetAdd_ite_mem,
    pySetAdd_ite_mem, buildNeeded_foldl_mem]
  simp only [List.mem_append, charLits_mem, List.mem_filter, List.not_mem_nil, false_or,
    decide_eq_true_eq]
  constructor
  · rintro ⟨hmem, hne⟩
    refine ⟨hne, ?_⟩
    rcases hmem with (((((⟨pr, hpr, hc⟩ | hm) | hm) | hm) | hm) | hm)
    · rcases hc with (⟨c, hcd, hcond, rfl⟩ | ⟨c, hcd, hcond, rfl⟩) | hc
      · rcases hcond with hcm | hcm
        · exact Or.inl hcm
        · exact Or.inr (Or.inl ⟨pr, hpr, c, Or.inl hcd, hcm, rfl⟩)
      · rcases hcond with hcm | hcm
        · exact Or.inl hcm
        · exact Or.inr (Or.inl ⟨pr, hpr, c, Or.inr hcd, hcm, rfl⟩)
      · exact Or.inl (hpats s hc.1)
    · exact Or.inr (Or.inr (Or.inl ⟨hm.2, hm.1⟩))
    · exact Or.inr (Or.inr (Or.inr ⟨hm.2, hm.1⟩))
    · subst hm; exact Or.inl hbs
    · subst hm; exact Or.inl hsl
    · exact Or.inl hm
  · rintro ⟨hne, hmain⟩
    refine ⟨?_, hne⟩
    rcases hmain with hm | ⟨pr, hpr, c, hcd, halnum, rfl⟩ | ⟨rfl, hcond⟩ | ⟨rfl, hcond⟩
    · exact Or.inr hm
    · refine Or.inl (Or.inl (Or.inl (Or.inl (Or.inl ⟨pr, hpr, ?_⟩))))
      rcases hcd with hcd | hcd
      · exact Or.inl (Or.inl ⟨c, hcd, Or.inr halnum, rfl⟩)
      · exact Or.inl (Or.inr ⟨c, hcd, Or.inr halnum, rfl⟩)
    · exact Or.inl (Or.inl (Or.inl (Or.inl (Or.inr ⟨hcond, rfl⟩))))
    · exact Or.inl (Or.inl (Or.inl (Or.inr ⟨hcond, rfl⟩)))

end MPAssign
